import Mathlib

/-!
Verification of the EBS volume-tagging script (tag_ebs_volumes.py).

Python dictionaries are modelled as association lists in insertion order
(`List (String × α)`); dict construction keeps keys unique, duplicate
insertion updates the value in place.  Python sets are modelled as
duplicate-free lists in first-insertion order (Python set iteration order
is unspecified; this model fixes a deterministic one).  The boto3/AWS
calls are modelled as an environment record of functions returning
`Except String _`, where `.error` stands for a raised exception
(uncaught exceptions in the script abort the run, which the model
reflects by propagating `.error`).
-/

/-- A provider-native tag record, i.e. the Python dict
{"Key": ..., "Value": ...} used by the AWS tag APIs. -/
structure AwsTag where
  Key : String
  Value : String
deriving DecidableEq, Repr

/-- A Python dict from tag key to tag value, in insertion order. -/
abbrev TagMap := List (String × String)

/-- Python `k in d` for a dict modelled as an association list. -/
def hasKey {α : Type} (m : List (String × α)) (k : String) : Bool :=
  m.any (fun kv => kv.1 == k)

/-- Python `d[k] = v`: update in place when the key exists (dicts keep the
original key position), otherwise append at the end. -/
def dinsert {α : Type} (m : List (String × α)) (k : String) (v : α) :
    List (String × α) :=
  if hasKey m k then m.map (fun kv => if kv.1 == k then (k, v) else kv)
  else m ++ [(k, v)]

/-- Python `{**a, **b}` / `a.update(b)`: entries of `b` inserted into `a`
in order, values of `b` winning on common keys. -/
def dictMerge {α : Type} (a b : List (String × α)) : List (String × α) :=
  b.foldl (fun m kv => dinsert m kv.1 kv.2) a

/-- Python `s.add(x)` on a set modelled as a duplicate-free list. -/
def setAdd (s : List String) (x : String) : List String :=
  if s.contains x then s else s ++ [x]

/-- Python `s.update(l)`. -/
def setUnion (s : List String) (l : List String) : List String :=
  l.foldl setAdd s

/-- Python `set(l)`, modelled in first-occurrence order. -/
def listDedupAux (acc : List String) : List String → List String
  | [] => acc
  | x :: xs => if acc.contains x then listDedupAux acc xs
               else listDedupAux (acc ++ [x]) xs

/-- Python `set(l)` as a duplicate-free list. -/
def listDedup (l : List String) : List String := listDedupAux [] l

/-- tag_ebs_volumes.py lines 220-221:
`return {tag["Key"]: tag["Value"] for tag in tags}` —
a dict comprehension assigns left to right, so a later record with the
same key overwrites an earlier one. -/
def tags_to_dict (tags : List AwsTag) : TagMap :=
  tags.foldl (fun m t => dinsert m t.Key t.Value) []

/-- tag_ebs_volumes.py lines 224-225:
`return [{"Key": key, "Value": value} for key, value in tags.items()]` -/
def dict_to_tags (tags : TagMap) : List AwsTag :=
  tags.map (fun kv => AwsTag.mk kv.1 kv.2)

/-- Character-class matching as in the regex produced by
`fnmatch.translate`: `a-b` is a code-point range; a `-` that has no
right-hand endpoint, or starts the class, is literal. -/
def classMatch (c : Char) : List Char → Bool
  | a :: hy :: b :: rest =>
      if hy == '-' then ((a ≤ c && c ≤ b) || classMatch c rest)
      else (a == c || classMatch c (hy :: b :: rest))
  | a :: rest => a == c || classMatch c rest
  | [] => false

/-- Scan for the closing `]` of a character class; `none` when the
pattern ends without one (then `[` matches literally, as in fnmatch). -/
def scanClose : List Char → Option (List Char × List Char)
  | [] => none
  | ']' :: rest => some ([], rest)
  | c :: rest =>
    match scanClose rest with
    | none => none
    | some (content, r) => some (c :: content, r)

/-- Split the pattern right after a `[` into (negated?, class content,
rest of pattern), following fnmatch: a leading `!` negates, and a `]`
immediately after the (possibly negated) start belongs to the class. -/
def classSplit (ps : List Char) : Option (Bool × List Char × List Char) :=
  match ps with
  | '!' :: ps1 =>
    match ps1 with
    | ']' :: t =>
      match scanClose t with
      | some (content, r) => some (true, ']' :: content, r)
      | none => none
    | _ =>
      match scanClose ps1 with
      | some (content, r) => some (true, content, r)
      | none => none
  | _ =>
    match ps with
    | ']' :: t =>
      match scanClose t with
      | some (content, r) => some (false, ']' :: content, r)
      | none => none
    | _ =>
      match scanClose ps with
      | some (content, r) => some (false, content, r)
      | none => none

/-- Shell-glob matching of a pattern against a string, with `*`, `?` and
character classes, matching the whole string — the semantics of
`fnmatch.fnmatch` on a case-sensitive (POSIX) platform.  The first
argument is fuel making the recursion structural (hence kernel-reducible);
every recursive call shrinks `p.length + s.length`, so any fuel above
that bound gives the fuel-free semantics. -/
def globMatchF : Nat → List Char → List Char → Bool
  | 0, _, _ => false
  | _ + 1, [], [] => true
  | _ + 1, [], _ :: _ => false
  | f + 1, '*' :: ps, s =>
      globMatchF f ps s ||
        (match s with
         | [] => false
         | _ :: cs => globMatchF f ('*' :: ps) cs)
  | f + 1, '?' :: ps, s =>
      (match s with
       | [] => false
       | _ :: cs => globMatchF f ps cs)
  | f + 1, '[' :: ps, s =>
      (match s with
       | [] => false
       | c :: cs =>
         match classSplit ps with
         | some (neg, content, rest) =>
           (if neg then !(classMatch c content) else classMatch c content)
             && globMatchF f rest cs
         | none => (('[' : Char) == c) && globMatchF f ps cs)
  | f + 1, p :: ps, s =>
      (match s with
       | [] => false
       | c :: cs => (p == c) && globMatchF f ps cs)

/-- Glob matching of pattern `p` against string `s`. -/
def globMatch (p s : List Char) : Bool :=
  globMatchF (p.length + s.length + 1) p s

/-- Python `fnmatch.fnmatch(name, pat)` (POSIX: no case folding). -/
def fnmatch (name pat : String) : Bool :=
  globMatch pat.data name.data

/-- tag_ebs_volumes.py lines 86-94: keep the tags whose key matches at
least one of the glob patterns. -/
def filter_tags (tags : TagMap) (pats : List String) : TagMap :=
  tags.filter (fun kv => pats.any (fun pat => fnmatch kv.1 pat))

/-- tag_ebs_volumes.py lines 144-145 and 153-154: the filter is only
invoked when the configured pattern list is truthy, i.e. non-empty
(`if tags: ... = filter_tags(..., tags)`). -/
def apply_tag_filter (pats : List String) (m : TagMap) : TagMap :=
  if pats.isEmpty then m else filter_tags m pats

/-- tag_ebs_volumes.py lines 161-166: instance tags whose key is not on
the volume. -/
def new_tags (ti tv : TagMap) : TagMap :=
  ti.filter (fun kv => !(hasKey tv kv.1))

/-- tag_ebs_volumes.py lines 167-171: instance tags present on the
volume with the same value. -/
def same_tags (ti tv : TagMap) : TagMap :=
  ti.filter (fun kv => hasKey tv kv.1 && (tv.lookup kv.1 == some kv.2))

/-- tag_ebs_volumes.py lines 172-176: instance tags present on the
volume with a different value (instance-side values). -/
def differing_tags (ti tv : TagMap) : TagMap :=
  ti.filter (fun kv => hasKey tv kv.1 && !(tv.lookup kv.1 == some kv.2))

/-- tag_ebs_volumes.py lines 177-181: the volume-side values of the
differing keys. -/
def differing_tags_on_volume (ti tv : TagMap) : TagMap :=
  tv.filter (fun kv => hasKey (differing_tags ti tv) kv.1)

/-- tag_ebs_volumes.py lines 182-186: volume tags whose key is not on
the instance. -/
def missing_tags (ti tv : TagMap) : TagMap :=
  tv.filter (fun kv => !(hasKey ti kv.1))

/-- tag_ebs_volumes.py lines 188-191:
`tags_to_apply = {**new_tags, **differing_tags} if overwrite else new_tags`. -/
def tags_to_apply (ti tv : TagMap) (overwrite : Bool) : TagMap :=
  if overwrite then dictMerge (new_tags ti tv) (differing_tags ti tv)
  else new_tags ti tv

/-! ### Dictionary lemmas -/

lemma hasKey_eq_true_iff {α : Type} {m : List (String × α)} {k : String} :
    hasKey m k = true ↔ ∃ v, (k, v) ∈ m := by
  simp only [hasKey, List.any_eq_true, beq_iff_eq]
  constructor
  · rintro ⟨⟨a, b⟩, hm, rfl⟩
    exact ⟨b, hm⟩
  · rintro ⟨v, hv⟩
    exact ⟨(k, v), hv, rfl⟩

lemma hasKey_eq_false_iff {α : Type} {m : List (String × α)} {k : String} :
    hasKey m k = false ↔ ∀ kv ∈ m, kv.1 ≠ k := by
  simp only [hasKey, List.any_eq_false, beq_iff_eq]

lemma hasKey_append {α : Type} (a b : List (String × α)) (k : String) :
    hasKey (a ++ b) k = (hasKey a k || hasKey b k) := by
  simp [hasKey, List.any_append]

lemma hasKey_cons {α : Type} (kv : String × α) (m : List (String × α)) (k : String) :
    hasKey (kv :: m) k = ((kv.1 == k) || hasKey m k) := by
  simp [hasKey]

lemma hasKey_eq_keys_any {α : Type} (m : List (String × α)) (x : String) :
    hasKey m x = (m.map Prod.fst).any (fun a => a == x) := by
  induction m with
  | nil => rfl
  | cons kv m ih => simp [hasKey] at ih ⊢; rw [ih]

lemma keys_map_update {α : Type} (m : List (String × α)) (k : String) (v : α) :
    (m.map (fun kv => if kv.1 == k then (k, v) else kv)).map Prod.fst =
      m.map Prod.fst := by
  rw [List.map_map]
  apply List.map_congr_left
  intro kv _
  by_cases h : kv.1 == k
  · simp [Function.comp, h, (beq_iff_eq.mp h).symm]
  · simp [Function.comp, h]

lemma hasKey_dinsert {α : Type} (m : List (String × α)) (k : String) (v : α)
    (x : String) :
    hasKey (dinsert m k v) x = (hasKey m x || (k == x)) := by
  by_cases h : hasKey m k
  · simp only [dinsert, h, if_true]
    rw [hasKey_eq_keys_any, keys_map_update, ← hasKey_eq_keys_any]
    by_cases hkx : (k == x) = true
    · have : k = x := beq_iff_eq.mp hkx
      subst this
      simp [h, hkx]
    · simp [Bool.eq_false_iff.mpr hkx]
  · have hf : hasKey m k = false := by simpa using h
    simp only [dinsert, hf, Bool.false_eq_true, if_false, hasKey_append]
    congr 1
    simp [hasKey]

lemma lookup_eq_none_of_hasKey_false {α : Type} {m : List (String × α)} {k : String}
    (h : hasKey m k = false) : m.lookup k = none := by
  induction m with
  | nil => rfl
  | cons kv m ih =>
    rw [hasKey_cons] at h
    obtain ⟨h1, h2⟩ := Bool.or_eq_false_iff.mp h
    obtain ⟨a, b⟩ := kv
    have : (k == a) = false := by
      simp only at h1
      rw [beq_eq_false_iff_ne] at h1 ⊢
      exact fun he => h1 he.symm
    simp [List.lookup, this, ih h2]

lemma mem_of_lookup_eq_some {α : Type} {m : List (String × α)} {k : String} {v : α}
    (h : m.lookup k = some v) : (k, v) ∈ m := by
  induction m with
  | nil => simp [List.lookup] at h
  | cons kv m ih =>
    obtain ⟨a, b⟩ := kv
    by_cases hk : k == a
    · simp only [List.lookup, hk, Option.some.injEq] at h
      have := beq_iff_eq.mp hk
      subst this
      subst h
      exact List.mem_cons_self _ _
    · simp only [List.lookup, hk] at h
      exact List.mem_cons_of_mem _ (ih h)

lemma lookup_eq_some_of_mem_nodup {α : Type} {m : List (String × α)} {k : String}
    {v : α} (hnd : (m.map Prod.fst).Nodup) (h : (k, v) ∈ m) :
    m.lookup k = some v := by
  induction m with
  | nil => simp at h
  | cons kv m ih =>
    obtain ⟨a, b⟩ := kv
    simp only [List.map_cons, List.nodup_cons] at hnd
    rcases List.mem_cons.mp h with he | hm
    · obtain ⟨h1, h2⟩ := Prod.mk.injEq .. ▸ he
      subst h1; subst h2
      simp [List.lookup]
    · have hka : (k == a) = false := by
        rw [beq_eq_false_iff_ne]
        intro he
        subst he
        exact hnd.1 (List.mem_map.mpr ⟨(k, v), hm, rfl⟩)
      simp [List.lookup, hka, ih hnd.2 hm]

lemma lookup_append_left {α : Type} {a : List (String × α)} (b : List (String × α))
    {k : String} (h : hasKey a k = true) : (a ++ b).lookup k = a.lookup k := by
  induction a with
  | nil => simp [hasKey] at h
  | cons kv a ih =>
    obtain ⟨x, y⟩ := kv
    by_cases hk : k == x
    · simp [List.lookup, hk]
    · rw [hasKey_cons] at h
      have hx : (x == k) = false := by
        rw [beq_eq_false_iff_ne]
        intro he
        subst he
        simp at hk
      simp only [hx, Bool.false_or] at h
      simp [List.lookup, hk, ih h]

lemma lookup_append_right {α : Type} {a : List (String × α)} (b : List (String × α))
    {k : String} (h : hasKey a k = false) : (a ++ b).lookup k = b.lookup k := by
  induction a with
  | nil => simp
  | cons kv a ih =>
    obtain ⟨x, y⟩ := kv
    rw [hasKey_cons] at h
    obtain ⟨h1, h2⟩ := Bool.or_eq_false_iff.mp h
    have hk : (k == x) = false := by
      simp only at h1
      rw [beq_eq_false_iff_ne] at h1 ⊢
      exact fun he => h1 he.symm
    simp [List.lookup, hk, ih h2]

lemma lookup_map_update_self {α : Type} {m : List (String × α)} {k : String}
    (v : α) (h : hasKey m k = true) :
    (m.map (fun kv => if kv.1 == k then (k, v) else kv)).lookup k = some v := by
  induction m with
  | nil => simp [hasKey] at h
  | cons kv m ih =>
    obtain ⟨a, b⟩ := kv
    rw [List.map_cons]
    by_cases ha : (a == k) = true
    · have : (if ((a, b) : String × α).1 == k then (k, v) else (a, b)) = (k, v) := by
        simp [ha]
      rw [this]
      simp [List.lookup]
    · have : (if ((a, b) : String × α).1 == k then (k, v) else (a, b)) = (a, b) := by
        simp [ha]
      rw [this]
      rw [hasKey_cons] at h
      simp only [ha, Bool.false_or] at h
      have ha2 : a ≠ k := by simpa using ha
      have hk : (k == a) = false := beq_eq_false_iff_ne.mpr (Ne.symm ha2)
      simp only [List.lookup, hk]
      exact ih h

lemma lookup_map_update_ne {α : Type} {m : List (String × α)} {k x : String}
    (v : α) (hx : (x == k) = false) :
    (m.map (fun kv => if kv.1 == k then (k, v) else kv)).lookup x = m.lookup x := by
  induction m with
  | nil => rfl
  | cons kv m ih =>
    obtain ⟨a, b⟩ := kv
    rw [List.map_cons]
    by_cases ha : (a == k) = true
    · have : (if ((a, b) : String × α).1 == k then (k, v) else (a, b)) = (k, v) := by
        simp [ha]
      rw [this]
      have hax : (x == a) = false := by
        have h1 : a = k := beq_iff_eq.mp ha
        rw [h1]
        exact hx
      simp only [List.lookup, hx, hax]
      exact ih
    · have : (if ((a, b) : String × α).1 == k then (k, v) else (a, b)) = (a, b) := by
        simp [ha]
      rw [this]
      by_cases hxa : (x == a) = true
      · simp [List.lookup, hxa]
      · have hxa2 : (x == a) = false := by simpa using hxa
        simp only [List.lookup, hxa2]
        exact ih

lemma lookup_dinsert {α : Type} (m : List (String × α)) (k : String) (v : α)
    (x : String) :
    (dinsert m k v).lookup x = if (x == k) = true then some v else m.lookup x := by
  by_cases h : hasKey m k
  · simp only [dinsert, h, if_true]
    by_cases hx : (x == k) = true
    · have := beq_iff_eq.mp hx
      subst this
      simp only [hx, if_true]
      exact lookup_map_update_self v h
    · simp only [hx, Bool.false_eq_true, if_false]
      exact lookup_map_update_ne v (Bool.eq_false_iff.mpr hx)
  · have hf : hasKey m k = false := by simpa using h
    simp only [dinsert, hf, Bool.false_eq_true, if_false]
    by_cases hx : (x == k) = true
    · have := beq_iff_eq.mp hx
      subst this
      have : (m ++ [(x, v)]).lookup x = List.lookup x [(x, v)] :=
        lookup_append_right _ hf
      simp only [hx, if_true, this, List.lookup]
    · simp only [hx, Bool.false_eq_true, if_false]
      by_cases hmx : hasKey m x = true
      · exact lookup_append_left _ hmx
      · have hmf : hasKey m x = false := by simpa using hmx
        rw [lookup_append_right _ hmf, lookup_eq_none_of_hasKey_false hmf]
        simp [List.lookup, hx]

lemma hasKey_filter (p : String × String → Bool) (m : TagMap) (k : String) :
    hasKey (m.filter p) k = m.any (fun kv => (kv.1 == k) && p kv) := by
  induction m with
  | nil => rfl
  | cons kv m ih =>
    by_cases h : p kv = true
    · simp [List.filter_cons, h, hasKey_cons, ih, Bool.or_assoc, Bool.and_comm]
    · have hf : p kv = false := by simpa using h
      simp [List.filter_cons, hf, ih]

lemma hasKey_dictMerge {α : Type} (a b : List (String × α)) (k : String) :
    hasKey (dictMerge a b) k = (hasKey a k || hasKey b k) := by
  induction b generalizing a with
  | nil => simp [dictMerge, hasKey]
  | cons kv b ih =>
    show hasKey (dictMerge (dinsert a kv.1 kv.2) b) k = _
    rw [ih, hasKey_dinsert, hasKey_cons]
    simp [Bool.or_assoc]

lemma dictMerge_eq_append {α : Type} (a b : List (String × α))
    (hdisj : ∀ kv ∈ b, hasKey a kv.1 = false) (hnd : (b.map Prod.fst).Nodup) :
    dictMerge a b = a ++ b := by
  induction b generalizing a with
  | nil => simp [dictMerge]
  | cons kv b ih =>
    simp only [List.map_cons, List.nodup_cons] at hnd
    have hk : hasKey a kv.1 = false := hdisj kv (List.mem_cons_self _ _)
    show dictMerge (dinsert a kv.1 kv.2) b = _
    rw [dinsert, hk]
    simp only [Bool.false_eq_true, if_false]
    rw [ih (a ++ [(kv.1, kv.2)]) ?_ hnd.2]
    · simp
    · intro kv' hkv'
      rw [hasKey_append]
      have h1 : hasKey a kv'.1 = false := hdisj kv' (List.mem_cons_of_mem _ hkv')
      have h2 : (kv.1 == kv'.1) = false := by
        rw [beq_eq_false_iff_ne]
        intro he
        exact hnd.1 (he ▸ List.mem_map.mpr ⟨kv', hkv', rfl⟩)
      rw [h1]
      simp [hasKey, h2]

lemma mem_dinsert {α : Type} {m : List (String × α)} {k : String} {v : α}
    {e : String × α} (h : e ∈ dinsert m k v) : e ∈ m ∨ e = (k, v) := by
  by_cases hk : hasKey m k
  · simp only [dinsert, hk, if_true] at h
    obtain ⟨kv, hkv, he⟩ := List.mem_map.mp h
    by_cases hb : (kv.1 == k) = true
    · right
      rw [← he]
      simp [hb]
    · left
      rw [← he]
      simpa [hb] using hkv
  · have hf : hasKey m k = false := by simpa using hk
    simp only [dinsert, hf, Bool.false_eq_true, if_false] at h
    rcases List.mem_append.mp h with h1 | h2
    · exact Or.inl h1
    · exact Or.inr (by simpa using h2)

lemma mem_listDedupAux {v : String} : ∀ (l acc : List String),
    v ∈ listDedupAux acc l → v ∈ acc ∨ v ∈ l := by
  intro l
  induction l with
  | nil => intro acc h; exact Or.inl h
  | cons x xs ih =>
    intro acc h
    simp only [listDedupAux] at h
    by_cases hc : acc.contains x
    · rw [if_pos hc] at h
      rcases ih acc h with h1 | h2
      · exact Or.inl h1
      · exact Or.inr (List.mem_cons_of_mem _ h2)
    · rw [if_neg hc] at h
      rcases ih (acc ++ [x]) h with h1 | h2
      · rcases List.mem_append.mp h1 with ha | hx
        · exact Or.inl ha
        · exact Or.inr (by simpa using Or.inl (by simpa using hx))
      · exact Or.inr (List.mem_cons_of_mem _ h2)

lemma mem_listDedup {v : String} {l : List String} (h : v ∈ listDedup l) :
    v ∈ l := by
  rcases mem_listDedupAux l [] h with h1 | h2
  · simp at h1
  · exact h2

/-! ### Tag codec and filter claims -/

lemma foldl_dinsert_fresh (l : List AwsTag) :
    ∀ acc : TagMap, (∀ t ∈ l, hasKey acc t.Key = false) →
      (l.map AwsTag.Key).Nodup →
      l.foldl (fun m t => dinsert m t.Key t.Value) acc =
        acc ++ l.map (fun t => (t.Key, t.Value)) := by
  induction l with
  | nil => intro acc _ _; simp
  | cons t l ih =>
    intro acc hfresh hnd
    simp only [List.map_cons, List.nodup_cons] at hnd
    have h0 : hasKey acc t.Key = false := hfresh t (List.mem_cons_self _ _)
    rw [List.foldl_cons]
    have hd : dinsert acc t.Key t.Value = acc ++ [(t.Key, t.Value)] := by
      rw [dinsert, h0]
      simp
    rw [hd, ih (acc ++ [(t.Key, t.Value)]) ?_ hnd.2]
    · simp
    · intro t' ht'
      rw [hasKey_append, hfresh t' (List.mem_cons_of_mem _ ht')]
      have : (t.Key == t'.Key) = false := by
        rw [beq_eq_false_iff_ne]
        intro he
        exact hnd.1 (he ▸ List.mem_map.mpr ⟨t', ht', rfl⟩)
      simp [hasKey, this]

/-- C7: for every tag map with unique keys, decoding the provider-native
list produced by encoding it returns the map exactly:
tags_to_dict (dict_to_tags m) = m. -/
theorem decode_encode_roundtrip (m : TagMap) (hnd : (m.map Prod.fst).Nodup) :
    tags_to_dict (dict_to_tags m) = m := by
  rw [tags_to_dict, dict_to_tags]
  rw [foldl_dinsert_fresh _ [] ?_ ?_]
  · simp only [List.nil_append, List.map_map]
    have he : ((fun (t : AwsTag) => (t.Key, t.Value)) ∘
        fun (kv : String × String) => AwsTag.mk kv.1 kv.2) = id := by
      funext kv
      rfl
    rw [he, List.map_id]
  · intro t _
    rfl
  · rw [List.map_map]
    exact hnd

/-- Witness for C7 at a concrete two-key map. -/
theorem decode_encode_roundtrip_witness :
    (([("Name", "web"), ("Env", "prod")] : TagMap).map Prod.fst).Nodup ∧
      tags_to_dict (dict_to_tags [("Name", "web"), ("Env", "prod")]) =
        [("Name", "web"), ("Env", "prod")] :=
  ⟨by decide, decode_encode_roundtrip _ (by decide)⟩

/-- C10: decoding a provider-native tag list binds each key to the value
of the LAST record bearing that key; earlier duplicates are discarded. -/
theorem tags_to_dict_last_wins (l : List AwsTag) (k : String) :
    (tags_to_dict l).lookup k =
      (l.reverse.find? (fun t => t.Key == k)).map AwsTag.Value := by
  induction l using List.reverseRecOn with
  | nil => rfl
  | append_singleton l t ih =>
    rw [tags_to_dict, List.foldl_append, List.foldl_cons, List.foldl_nil]
    show (dinsert (tags_to_dict l) t.Key t.Value).lookup k = _
    rw [lookup_dinsert, List.reverse_append]
    simp only [List.reverse_singleton, List.singleton_append, List.find?]
    by_cases hk : (k == t.Key) = true
    · have h2 : (t.Key == k) = true := by
        rw [beq_iff_eq] at hk ⊢
        exact hk.symm
      simp [hk, h2]
    · have hk2 : (k == t.Key) = false := by simpa using hk
      have h2 : (t.Key == k) = false := by
        rw [beq_eq_false_iff_ne] at hk2 ⊢
        exact fun he => hk2 he.symm
      simp only [hk2, Bool.false_eq_true, if_false, h2]
      exact ih

/-- Counterexample for C3 as literally stated: the filter function applied
with an empty pattern list does NOT return the tags unchanged. -/
theorem filter_tags_empty_cex : filter_tags [("a", "b")] [] ≠ [("a", "b")] := by
  decide

/-- C3 (amended): filter_tags with an empty pattern list returns the empty
map; the program only invokes the filter when the pattern list is
non-empty (the call-site guard), so the effective filtering step is a
no-op when no patterns are configured. -/
theorem tag_filter_noop_when_no_patterns (m : TagMap) :
    apply_tag_filter [] m = m ∧ filter_tags m [] = [] := by
  refine ⟨rfl, ?_⟩
  simp [filter_tags]

/-- C8: with a non-empty pattern list, a key appears in the filtered map
iff it is a key of the input map and the whole key glob-matches at least
one pattern. -/
theorem filter_tags_key_membership (tags : TagMap) (pats : List String)
    (hne : pats ≠ []) (k : String) :
    hasKey (filter_tags tags pats) k = true ↔
      (hasKey tags k = true ∧ pats.any (fun pat => fnmatch k pat) = true) := by
  rw [filter_tags, hasKey_filter]
  rw [List.any_eq_true]
  constructor
  · rintro ⟨kv, hm, hp⟩
    obtain ⟨h1, h2⟩ := Bool.and_eq_true_iff.mp hp
    have hk : kv.1 = k := beq_iff_eq.mp h1
    refine ⟨hasKey_eq_true_iff.mpr ⟨kv.2, ?_⟩, hk ▸ h2⟩
    rw [← hk]
    simpa using hm
  · rintro ⟨h1, h2⟩
    obtain ⟨v, hv⟩ := hasKey_eq_true_iff.mp h1
    exact ⟨(k, v), hv, by simp [h2]⟩

/-- Witness for C8 on the spec §8 scenario: patterns ["Env*"], instance
tags containing Env and Team. -/
theorem filter_tags_key_membership_witness :
    (["Env*"] : List String) ≠ [] ∧
      (hasKey (filter_tags [("Env", "prod"), ("Team", "infra")] ["Env*"]) "Env" = true ↔
        (hasKey [("Env", "prod"), ("Team", "infra")] "Env" = true ∧
          (["Env*"].any (fun pat => fnmatch "Env" pat)) = true)) :=
  ⟨by decide, filter_tags_key_membership [("Env", "prod"), ("Team", "infra")]
    ["Env*"] (by decide) "Env"⟩

/-! ### Tag diff engine claims -/

lemma hasKey_of_hasKey_filter {p : String × String → Bool} {m : TagMap}
    {k : String} (h : hasKey (m.filter p) k = true) : hasKey m k = true := by
  obtain ⟨v, hv⟩ := hasKey_eq_true_iff.mp h
  exact hasKey_eq_true_iff.mpr ⟨v, (List.mem_filter.mp hv).1⟩

lemma keys_filter_nodup (p : String × String → Bool) (m : TagMap)
    (h : (m.map Prod.fst).Nodup) : ((m.filter p).map Prod.fst).Nodup :=
  h.sublist ((List.filter_sublist m).map Prod.fst)

lemma new_differing_disjoint (ti tv : TagMap) :
    ∀ kv ∈ differing_tags ti tv, hasKey (new_tags ti tv) kv.1 = false := by
  intro kv hkv
  obtain ⟨hti, hp⟩ := List.mem_filter.mp hkv
  obtain ⟨h1, _⟩ := Bool.and_eq_true_iff.mp hp
  rw [Bool.eq_false_iff]
  intro hc
  obtain ⟨v, hv⟩ := hasKey_eq_true_iff.mp hc
  have h2 := (List.mem_filter.mp hv).2
  simp only [Bool.not_eq_true'] at h2
  rw [h2] at h1
  exact Bool.false_ne_true h1

lemma hasKey_new_eq_false_of_on_volume {ti tv : TagMap} {k : String}
    (h : hasKey tv k = true) : hasKey (new_tags ti tv) k = false := by
  rw [Bool.eq_false_iff]
  intro hc
  obtain ⟨v, hv⟩ := hasKey_eq_true_iff.mp hc
  have h2 := (List.mem_filter.mp hv).2
  simp only [Bool.not_eq_true'] at h2
  simp [h] at h2

lemma same_differing_disjoint {ti tv : TagMap}
    (hnd : (ti.map Prod.fst).Nodup) {k : String}
    (hs : hasKey (same_tags ti tv) k = true) :
    hasKey (differing_tags ti tv) k = false := by
  rw [Bool.eq_false_iff]
  intro hd
  obtain ⟨v0, hv0⟩ := hasKey_eq_true_iff.mp hs
  obtain ⟨v1, hv1⟩ := hasKey_eq_true_iff.mp hd
  obtain ⟨hm0, hp0⟩ := List.mem_filter.mp hv0
  obtain ⟨hm1, hp1⟩ := List.mem_filter.mp hv1
  have e0 := lookup_eq_some_of_mem_nodup hnd hm0
  have e1 := lookup_eq_some_of_mem_nodup hnd hm1
  rw [e0] at e1
  have hv : v0 = v1 := by injection e1
  subst hv
  obtain ⟨_, h0⟩ := Bool.and_eq_true_iff.mp hp0
  obtain ⟨_, h1⟩ := Bool.and_eq_true_iff.mp hp1
  rw [h0] at h1
  simp at h1

lemma hasKey_tv_of_same {ti tv : TagMap} {k : String}
    (hs : hasKey (same_tags ti tv) k = true) : hasKey tv k = true := by
  obtain ⟨v0, hv0⟩ := hasKey_eq_true_iff.mp hs
  exact (Bool.and_eq_true_iff.mp (List.mem_filter.mp hv0).2).1

lemma hasKey_ti_of_missing_false {ti tv : TagMap} {k : String}
    (hm : hasKey (missing_tags ti tv) k = true) : hasKey ti k = false := by
  obtain ⟨v0, hv0⟩ := hasKey_eq_true_iff.mp hm
  have h2 := (List.mem_filter.mp hv0).2
  simpa using h2

/-- C6: merging the non-overwrite apply-set into the volume tags and
re-running the diff yields an empty `new` partition (one-pass
convergence). -/
theorem no_overwrite_converges (ti tv : TagMap) :
    new_tags ti (dictMerge tv (tags_to_apply ti tv false)) = [] := by
  have hall : ∀ kv ∈ ti,
      hasKey (dictMerge tv (tags_to_apply ti tv false)) kv.1 = true := by
    intro kv hm
    rw [hasKey_dictMerge]
    by_cases htv : hasKey tv kv.1 = true
    · simp [htv]
    · have hf : hasKey tv kv.1 = false := by simpa using htv
      have hn : hasKey (tags_to_apply ti tv false) kv.1 = true := by
        show hasKey (new_tags ti tv) kv.1 = true
        rw [new_tags, hasKey_filter, List.any_eq_true]
        exact ⟨kv, hm, by simp [hf]⟩
      simp [hn]
  rw [new_tags]
  rw [List.filter_eq_nil_iff]
  intro kv hm
  simp [hall kv hm]

/-- C1: with overwrite off the apply-set is exactly the `new` partition;
with overwrite on its keys are exactly the keys of `new` and `differing`
and every value is the instance's value; keys of the `identical` and
`missing` partitions never appear in the apply-set. -/
theorem diff_apply_set_correct (ti tv : TagMap)
    (hnd : (ti.map Prod.fst).Nodup) :
    tags_to_apply ti tv false = new_tags ti tv ∧
    (∀ k, hasKey (tags_to_apply ti tv true) k =
      (hasKey (new_tags ti tv) k || hasKey (differing_tags ti tv) k)) ∧
    (∀ k v, (tags_to_apply ti tv true).lookup k = some v →
      ti.lookup k = some v) ∧
    (∀ ow k, (hasKey (same_tags ti tv) k || hasKey (missing_tags ti tv) k) = true →
      hasKey (tags_to_apply ti tv ow) k = false) := by
  refine ⟨rfl, ?_, ?_, ?_⟩
  · intro k
    exact hasKey_dictMerge _ _ _
  · intro k v hl
    have hmerge : dictMerge (new_tags ti tv) (differing_tags ti tv) =
        new_tags ti tv ++ differing_tags ti tv :=
      dictMerge_eq_append _ _ (new_differing_disjoint ti tv)
        (keys_filter_nodup _ _ hnd)
    have hl2 : (new_tags ti tv ++ differing_tags ti tv).lookup k = some v := by
      rw [← hmerge]
      exact hl
    rcases List.mem_append.mp (mem_of_lookup_eq_some hl2) with hn | hd
    · exact lookup_eq_some_of_mem_nodup hnd (List.mem_filter.mp hn).1
    · exact lookup_eq_some_of_mem_nodup hnd (List.mem_filter.mp hd).1
  · intro ow k hsm
    have hnew : hasKey (same_tags ti tv) k = true ∨
        hasKey (missing_tags ti tv) k = true := by
      rcases Bool.or_eq_true_iff.mp hsm with h | h
      · exact Or.inl h
      · exact Or.inr h
    have hnf : hasKey (new_tags ti tv) k = false := by
      rcases hnew with hs | hm
      · exact hasKey_new_eq_false_of_on_volume (hasKey_tv_of_same hs)
      · rw [Bool.eq_false_iff]
        intro hc
        have := hasKey_of_hasKey_filter hc
        rw [hasKey_ti_of_missing_false hm] at this
        exact Bool.false_ne_true this
    have hdf : hasKey (differing_tags ti tv) k = false := by
      rcases hnew with hs | hm
      · exact same_differing_disjoint hnd hs
      · rw [Bool.eq_false_iff]
        intro hc
        have := hasKey_of_hasKey_filter hc
        rw [hasKey_ti_of_missing_false hm] at this
        exact Bool.false_ne_true this
    cases ow with
    | false => exact hnf
    | true =>
      show hasKey (dictMerge (new_tags ti tv) (differing_tags ti tv)) k = false
      rw [hasKey_dictMerge, hnf, hdf]
      rfl

/-- Witness for C1 on the spec §8 scenario (Name differs, Env is new,
Backup is missing): with overwrite on, the applied value for Name is the
instance value. -/
theorem diff_apply_set_correct_witness :
    (([("Name", "web"), ("Env", "prod")] : TagMap).map Prod.fst).Nodup ∧
      ([("Name", "web"), ("Env", "prod")] : TagMap).lookup "Name" = some "web" :=
  ⟨by decide,
    (diff_apply_set_correct [("Name", "web"), ("Env", "prod")]
      [("Name", "disk"), ("Backup", "true")] (by decide)).2.2.1 "Name" "web"
      (by decide)⟩

/-! ### Association resolver and run model -/

/-- The boto3 view of one EBS volume: its state string, the InstanceId of
each attachment record (AWS always populates it), and its tags. -/
structure VolumeInfo where
  state : String
  attachments : List String
  tags : List AwsTag
deriving DecidableEq, Repr

/-- The AWS calls consumed by the script.  `.error` models a raised
exception (ResourceLookupError, ApplyError, ...); the script has no
try/except, so an error propagates. -/
structure Env where
  describe_tags : String → Except String (List AwsTag)
  instance_volumes : String → Except String (List String)
  describe_volume : String → Except String VolumeInfo
  create_tags : String → TagMap → Except String Unit

/-- The mutable dictionaries of start_tagging_volumes (lines 103-106). -/
structure ResolveState where
  tags_by_instance : List (String × TagMap)
  volumes_by_instance : List (String × List String)
  found_volumes : List String
deriving DecidableEq, Repr

/-- tag_ebs_volumes.py lines 108-117: iterate over the supplied instances,
fetch each instance's tags and volume list, record both and mark the
listed volumes as found. -/
def phase1 (env : Env) : List String → ResolveState → Except String ResolveState
  | [], st => .ok st
  | i :: rest, st =>
    match env.describe_tags i with
    | .error e => .error e
    | .ok tg =>
      match env.instance_volumes i with
      | .error e => .error e
      | .ok vols =>
        let vset := listDedup vols
        phase1 env rest
          { tags_by_instance := dinsert st.tags_by_instance i (tags_to_dict tg)
            volumes_by_instance := dinsert st.volumes_by_instance i vset
            found_volumes := setUnion st.found_volumes vset }

/-- tag_ebs_volumes.py lines 119-138: iterate over the supplied volumes.
A volume already found is skipped; an `available` volume is skipped with
a notice; otherwise the first attachment's instance is read
(`attachments[0]` raises IndexError on an empty list).  When that
instance's tags are not yet fetched they are fetched now and its volume
set initialized with this volume; otherwise NOTHING happens (the code
has no else branch). -/
def phase2 (env : Env) : List String → ResolveState → Except String ResolveState
  | [], st => .ok st
  | v :: rest, st =>
    if st.found_volumes.contains v then phase2 env rest st
    else
      match env.describe_volume v with
      | .error e => .error e
      | .ok info =>
        if info.state == "available" then phase2 env rest st
        else
          match info.attachments with
          | [] => .error "IndexError"
          | iid :: _ =>
            if hasKey st.tags_by_instance iid then phase2 env rest st
            else
              match env.describe_tags iid with
              | .error e => .error e
              | .ok tg =>
                phase2 env rest
                  { tags_by_instance :=
                      dinsert st.tags_by_instance iid (tags_to_dict tg)
                    volumes_by_instance :=
                      dinsert st.volumes_by_instance iid [v]
                    found_volumes := setAdd st.found_volumes v }

/-- tag_ebs_volumes.py lines 150-217: process one volume of an instance —
fetch the volume, decode and filter its tags, compute the apply-set, and
issue create_tags unless the set is empty or this is a dry run.  Returns
the create_tags call made, if any. -/
def process_volume (env : Env) (tags : List String) (overwrite dry_run : Bool)
    (tags_on_instance : TagMap) (volume_id : String) :
    Except String (Option (String × TagMap)) :=
  match env.describe_volume volume_id with
  | .error e => .error e
  | .ok info =>
    let tags_on_volume := apply_tag_filter tags (tags_to_dict info.tags)
    let tta := tags_to_apply tags_on_instance tags_on_volume overwrite
    if tta.isEmpty then .ok none
    else if dry_run then .ok none
    else
      match env.create_tags volume_id tta with
      | .error e => .error e
      | .ok _ => .ok (some (volume_id, tta))

/-- The inner volume loop of lines 150-217, accumulating the create_tags
calls issued. -/
def process_instance_volumes (env : Env) (tags : List String)
    (overwrite dry_run : Bool) (tags_on_instance : TagMap) :
    List String → Except String (List (String × TagMap))
  | [] => .ok []
  | v :: rest =>
    match process_volume env tags overwrite dry_run tags_on_instance v with
    | .error e => .error e
    | .ok c =>
      match process_instance_volumes env tags overwrite dry_run
          tags_on_instance rest with
      | .error e => .error e
      | .ok cs =>
        .ok (match c with
             | none => cs
             | some call => call :: cs)

/-- tag_ebs_volumes.py lines 140-217: the outer instance loop.  The
instance's tags are read from tags_by_instance (always present for the
instances in volumes_by_instance) and filtered once per instance. -/
def phase3 (env : Env) (tags : List String) (overwrite dry_run : Bool)
    (tbi : List (String × TagMap)) :
    List (String × List String) → Except String (List (String × TagMap))
  | [] => .ok []
  | (i, vols) :: rest =>
    let toi := apply_tag_filter tags ((tbi.lookup i).getD [])
    match process_instance_volumes env tags overwrite dry_run toi vols with
    | .error e => .error e
    | .ok cs =>
      match phase3 env tags overwrite dry_run tbi rest with
      | .error e => .error e
      | .ok cs2 => .ok (cs ++ cs2)

/-- tag_ebs_volumes.py lines 97-217 (start_tagging_volumes): resolve
instances, then leftover volumes, then tag.  The result is the final
resolver state together with the list of create_tags calls issued. -/
def start_tagging_volumes (env : Env)
    (ebs_volume_ids instance_ids tags : List String)
    (overwrite dry_run : Bool) :
    Except String (ResolveState × List (String × TagMap)) :=
  match phase1 env (listDedup instance_ids) ⟨[], [], []⟩ with
  | .error e => .error e
  | .ok st1 =>
    match phase2 env (listDedup ebs_volume_ids) st1 with
    | .error e => .error e
    | .ok st2 =>
      match phase3 env tags overwrite dry_run st2.tags_by_instance
          st2.volumes_by_instance with
      | .error e => .error e
      | .ok calls => .ok (st2, calls)

/-! ### Run-level claims -/

lemma listDedupAux_append_tail (l : List String) :
    ∀ acc, ∃ t, listDedupAux acc l = acc ++ t := by
  induction l with
  | nil => intro acc; exact ⟨[], by simp [listDedupAux]⟩
  | cons x xs ih =>
    intro acc
    by_cases h : x ∈ acc
    · obtain ⟨t, ht⟩ := ih acc
      exact ⟨t, by simp [listDedupAux, h, ht]⟩
    · obtain ⟨t, ht⟩ := ih (acc ++ [x])
      refine ⟨x :: t, ?_⟩
      simp [listDedupAux, h, ht]

lemma listDedup_cons (v : String) (rest : List String) :
    ∃ t, listDedup (v :: rest) = v :: t := by
  obtain ⟨t, ht⟩ := listDedupAux_append_tail rest [v]
  refine ⟨t, ?_⟩
  show listDedupAux [] (v :: rest) = v :: t
  simp [listDedupAux, ht]

lemma phase1_error_head (env : Env) (i : String) (rest : List String)
    (st : ResolveState) (e : String) (h : env.describe_tags i = .error e) :
    phase1 env (i :: rest) st = .error e := by
  simp [phase1, h]

/-- Environment for the C2 failing input: two volumes both attached to
instance i-1, which is not in the supplied instance list. -/
def envC2 : Env :=
  { describe_tags := fun _ => .ok [⟨"Env", "prod"⟩]
    instance_volumes := fun _ => .ok []
    describe_volume := fun _ => .ok ⟨"in-use", ["i-1"], []⟩
    create_tags := fun _ _ => .ok () }

/-- C2 (code bug): on the failing input — volume_ids [v-1, v-2], both
attached to i-1, no instance_ids — the run resolves only v-1 into i-1's
volume set and issues a single create_tags call for v-1; v-2 is silently
dropped (the code's `if instance_id not in tags_by_instance` has no else
branch adding the volume to the existing set, contradicting the spec's
"otherwise this volume joins that instance's existing set"). -/
theorem resolver_drops_second_volume :
    start_tagging_volumes envC2 ["v-1", "v-2"] [] [] false false =
      .ok (⟨[("i-1", [("Env", "prod")])], [("i-1", ["v-1"])], ["v-1"]⟩,
        [("v-1", [("Env", "prod")])]) := by
  rfl

/-- Environment for the C4 counterexample: the first instance's tag fetch
raises; the second instance is healthy with an attached volume. -/
def envC4 : Env :=
  { describe_tags := fun i =>
      if i == "i-bad" then .error "ResourceLookupError"
      else .ok [⟨"Env", "prod"⟩]
    instance_volumes := fun _ => .ok ["v-good"]
    describe_volume := fun _ => .ok ⟨"in-use", ["i-good"], []⟩
    create_tags := fun _ _ => .ok () }

/-- Counterexample for C4 as stated: a ResourceLookupError for one
instance aborts the whole run — the unrelated healthy instance i-good and
its volume are never processed and nothing is tagged, rather than the run
continuing with the error reported per resource. -/
theorem error_isolation_cex :
    start_tagging_volumes envC4 [] ["i-bad", "i-good"] [] false false =
      .error "ResourceLookupError" := by
  rfl

/-- C4 (amended): the script has no exception handling, so errors are NOT
isolated per resource: a resolution-phase ResourceLookupError while
fetching an instance's tags aborts the entire run with that error, and an
ApplyError from a tag-write aborts the volume loop, leaving the remaining
volumes unprocessed. -/
theorem errors_abort_run :
    (∀ (env : Env) (vols rest tags : List String) (ow dr : Bool) (i e : String),
      env.describe_tags i = .error e →
      start_tagging_volumes env vols (i :: rest) tags ow dr = .error e) ∧
    (∀ (env : Env) (tags : List String) (ow : Bool) (toi : TagMap)
      (v : String) (info : VolumeInfo) (rest : List String) (e : String),
      env.describe_volume v = .ok info →
      (tags_to_apply toi (apply_tag_filter tags (tags_to_dict info.tags))
        ow).isEmpty = false →
      env.create_tags v (tags_to_apply toi
        (apply_tag_filter tags (tags_to_dict info.tags)) ow) = .error e →
      process_instance_volumes env tags ow false toi (v :: rest) = .error e) := by
  constructor
  · intro env vols rest tags ow dr i e h
    obtain ⟨t, ht⟩ := listDedup_cons i rest
    rw [start_tagging_volumes, ht, phase1_error_head env i t _ e h]
  · intro env tags ow toi v info rest e hv hne hcr
    simp [process_instance_volumes, process_volume, hv, hne, hcr]

/-- Environment for the C4 witness. -/
def envC4w : Env :=
  { describe_tags := fun _ => .error "denied"
    instance_volumes := fun _ => .ok []
    describe_volume := fun _ => .ok ⟨"in-use", ["i-1"], []⟩
    create_tags := fun _ _ => .error "throttled" }

/-- Witness for C4 (amended) at concrete inputs: a failing instance fetch
aborts the run, and a failing create_tags aborts the volume loop. -/
theorem errors_abort_run_witness :
    start_tagging_volumes envC4w [] ["i-bad"] [] false false = .error "denied" ∧
    process_instance_volumes envC4w [] false false [("Env", "prod")] ["v-1"] =
      .error "throttled" :=
  ⟨errors_abort_run.1 envC4w [] [] [] false false "i-bad" "denied" rfl,
   errors_abort_run.2 envC4w [] false [("Env", "prod")] "v-1"
     ⟨"in-use", ["i-1"], []⟩ [] "throttled" rfl (by decide) rfl⟩

/-- Environment for C5: volume v-x is in-use but has no attachment
records (inconsistent provider data); v-y is a healthy attached volume. -/
def envC5 : Env :=
  { describe_tags := fun _ => .ok []
    instance_volumes := fun _ => .ok []
    describe_volume := fun v =>
      if v == "v-x" then .ok ⟨"in-use", [], []⟩
      else .ok ⟨"in-use", ["i-1"], []⟩
    create_tags := fun _ _ => .ok () }

/-- Counterexample for C5 as stated: the inconsistent volume v-x is not
skipped with a reported error while the run continues — the whole run
aborts with an uncaught IndexError and the healthy volume v-y is never
processed. -/
theorem inconsistent_volume_cex :
    start_tagging_volumes envC5 ["v-x", "v-y"] [] [] false false =
      .error "IndexError" := by
  rfl

/-- C5 (amended): a non-available volume with an empty attachment list
makes `attachments[0]` raise an uncaught IndexError that aborts the
entire run; the volume is not skipped and the remaining volumes are not
processed. -/
theorem inconsistent_volume_aborts_run (env : Env) (v : String)
    (info : VolumeInfo) (rest tags : List String) (ow dr : Bool)
    (hv : env.describe_volume v = .ok info) (hs : info.state ≠ "available")
    (ha : info.attachments = []) :
    start_tagging_volumes env (v :: rest) [] tags ow dr = .error "IndexError" := by
  obtain ⟨t, ht⟩ := listDedup_cons v rest
  have hsb : (info.state == "available") = false := beq_eq_false_iff_ne.mpr hs
  have h2 : phase2 env (v :: t) ⟨[], [], []⟩ = .error "IndexError" := by
    simp [phase2, hv, hsb, ha]
  have h1 : phase1 env (listDedup []) ⟨[], [], []⟩ = .ok ⟨[], [], []⟩ := rfl
  rw [start_tagging_volumes, h1, ht]
  simp [h2]

/-- Witness for C5 (amended) at a concrete input. -/
theorem inconsistent_volume_aborts_run_witness :
    start_tagging_volumes envC5 ["v-x"] [] [] false false =
      .error "IndexError" :=
  inconsistent_volume_aborts_run envC5 "v-x" ⟨"in-use", [], []⟩ [] [] false
    false rfl (by decide) rfl

/-- A volume id the resolver may record: it was either listed among some
instance's volumes, or it was fetched and seen in a non-available state. -/
def VolOk (env : Env) (v : String) : Prop :=
  (∃ i l, env.instance_volumes i = Except.ok l ∧ v ∈ l) ∨
  (∃ wi, env.describe_volume v = Except.ok wi ∧ wi.state ≠ "available")

/-- Resolver invariant: every recorded volume is VolOk. -/
def GoodVols (env : Env) (vbi : List (String × List String)) : Prop :=
  ∀ en ∈ vbi, ∀ v ∈ en.2, VolOk env v

lemma GoodVols_dinsert {env : Env} {vbi : List (String × List String)}
    {i : String} {vs : List String} (hg : GoodVols env vbi)
    (hvs : ∀ v ∈ vs, VolOk env v) : GoodVols env (dinsert vbi i vs) := by
  intro en hen v hv
  rcases mem_dinsert hen with h1 | h2
  · exact hg en h1 v hv
  · subst h2
    exact hvs v hv

lemma phase1_good (env : Env) : ∀ (ids : List String) (st st' : ResolveState),
    GoodVols env st.volumes_by_instance →
    phase1 env ids st = .ok st' → GoodVols env st'.volumes_by_instance := by
  intro ids
  induction ids with
  | nil =>
    intro st st' hg h
    simp only [phase1] at h
    injection h with h
    subst h
    exact hg
  | cons i rest ih =>
    intro st st' hg h
    simp only [phase1] at h
    cases hdt : env.describe_tags i with
    | error e =>
      simp only [hdt] at h
      exact Except.noConfusion h
    | ok tg =>
      simp only [hdt] at h
      cases hiv : env.instance_volumes i with
      | error e =>
        simp only [hiv] at h
        exact Except.noConfusion h
      | ok vols =>
        simp only [hiv] at h
        refine ih _ st' ?_ h
        exact GoodVols_dinsert hg
          (fun v hv => Or.inl ⟨i, vols, hiv, mem_listDedup hv⟩)

lemma phase2_good (env : Env) : ∀ (ids : List String) (st st' : ResolveState),
    GoodVols env st.volumes_by_instance →
    phase2 env ids st = .ok st' → GoodVols env st'.volumes_by_instance := by
  intro ids
  induction ids with
  | nil =>
    intro st st' hg h
    simp only [phase2] at h
    injection h with h
    subst h
    exact hg
  | cons v rest ih =>
    intro st st' hg h
    simp only [phase2] at h
    by_cases hc : st.found_volumes.contains v = true
    · rw [if_pos hc] at h
      exact ih st st' hg h
    · rw [if_neg hc] at h
      cases hdv : env.describe_volume v with
      | error e =>
        simp only [hdv] at h
        exact Except.noConfusion h
      | ok info =>
        simp only [hdv] at h
        by_cases hav : (info.state == "available") = true
        · rw [if_pos hav] at h
          exact ih st st' hg h
        · rw [if_neg hav] at h
          cases hatt : info.attachments with
          | nil =>
            simp only [hatt] at h
            exact Except.noConfusion h
          | cons iid more =>
            simp only [hatt] at h
            by_cases hk : hasKey st.tags_by_instance iid = true
            · rw [if_pos hk] at h
              exact ih st st' hg h
            · rw [if_neg hk] at h
              cases hdt : env.describe_tags iid with
              | error e =>
                simp only [hdt] at h
                exact Except.noConfusion h
              | ok tg =>
                simp only [hdt] at h
                refine ih _ st' ?_ h
                refine GoodVols_dinsert hg ?_
                intro w hw
                have hwv : w = v := by simpa using hw
                subst hwv
                refine Or.inr ⟨info, hdv, ?_⟩
                intro he
                exact hav (by rw [he]; rfl)

lemma process_volume_id {env : Env} {tags : List String} {ow dr : Bool}
    {toi : TagMap} {v : String} {c : String × TagMap}
    (h : process_volume env tags ow dr toi v = .ok (some c)) : c.1 = v := by
  rw [process_volume] at h
  cases hdv : env.describe_volume v with
  | error e =>
    simp only [hdv] at h
    exact Except.noConfusion h
  | ok info =>
    simp only [hdv] at h
    by_cases he : (tags_to_apply toi (apply_tag_filter tags
        (tags_to_dict info.tags)) ow).isEmpty = true
    · rw [if_pos he] at h
      injection h with h
      exact Option.noConfusion h
    · rw [if_neg he] at h
      cases dr with
      | true =>
        rw [if_pos rfl] at h
        injection h with h
        exact Option.noConfusion h
      | false =>
        rw [if_neg (by simp)] at h
        cases hcr : env.create_tags v (tags_to_apply toi (apply_tag_filter
            tags (tags_to_dict info.tags)) ow) with
        | error e =>
          simp only [hcr] at h
          exact Except.noConfusion h
        | ok u =>
          simp only [hcr] at h
          injection h with h
          injection h with h
          rw [← h]

lemma piv_calls (env : Env) (tags : List String) (ow dr : Bool)
    (toi : TagMap) : ∀ (vols : List String) (cs : List (String × TagMap)),
    process_instance_volumes env tags ow dr toi vols = .ok cs →
    ∀ c ∈ cs, c.1 ∈ vols := by
  intro vols
  induction vols with
  | nil =>
    intro cs h c hc
    simp only [process_instance_volumes] at h
    injection h with h
    subst h
    simp at hc
  | cons v rest ih =>
    intro cs h c hc
    simp only [process_instance_volumes] at h
    cases hpv : process_volume env tags ow dr toi v with
    | error e =>
      simp only [hpv] at h
      exact Except.noConfusion h
    | ok copt =>
      simp only [hpv] at h
      cases hrec : process_instance_volumes env tags ow dr toi rest with
      | error e =>
        simp only [hrec] at h
        exact Except.noConfusion h
      | ok cs1 =>
        simp only [hrec] at h
        cases copt with
        | none =>
          injection h with h
          subst h
          exact List.mem_cons_of_mem _ (ih cs1 hrec c hc)
        | some call =>
          injection h with h
          subst h
          rcases List.mem_cons.mp hc with h1 | h2
          · subst h1
            rw [process_volume_id hpv]
            exact List.mem_cons_self _ _
          · exact List.mem_cons_of_mem _ (ih cs1 hrec c h2)

lemma phase3_calls (env : Env) (tags : List String) (ow dr : Bool)
    (tbi : List (String × TagMap)) :
    ∀ (entries : List (String × List String)) (cs : List (String × TagMap)),
    phase3 env tags ow dr tbi entries = .ok cs →
    ∀ c ∈ cs, ∃ en ∈ entries, c.1 ∈ en.2 := by
  intro entries
  induction entries with
  | nil =>
    intro cs h c hc
    simp only [phase3] at h
    injection h with h
    subst h
    simp at hc
  | cons en rest ih =>
    intro cs h c hc
    obtain ⟨i, vols⟩ := en
    simp only [phase3] at h
    cases hpi : process_instance_volumes env tags ow dr
        (apply_tag_filter tags ((tbi.lookup i).getD [])) vols with
    | error e =>
      simp only [hpi] at h
      exact Except.noConfusion h
    | ok cs1 =>
      simp only [hpi] at h
      cases hrec : phase3 env tags ow dr tbi rest with
      | error e =>
        simp only [hrec] at h
        exact Except.noConfusion h
      | ok cs2 =>
        simp only [hrec] at h
        injection h with h
        subst h
        rcases List.mem_append.mp hc with h1 | h2
        · exact ⟨(i, vols), List.mem_cons_self _ _,
            piv_calls env tags ow dr _ vols cs1 hpi c h1⟩
        · obtain ⟨en2, hen2, hc2⟩ := ih cs2 hrec c h2
          exact ⟨en2, List.mem_cons_of_mem _ hen2, hc2⟩

/-- C9: in any successful run against a consistent provider (instances
only list volumes that are not in the `available` state), a volume whose
state is `available` is never placed into any instance's resolved volume
set and no create_tags call is ever issued for it. -/
theorem available_volume_never_tagged (env : Env) (v : String)
    (info : VolumeInfo) (vol_ids inst_ids tags : List String) (ow dr : Bool)
    (st : ResolveState) (calls : List (String × TagMap))
    (hcons : ∀ i l, env.instance_volumes i = Except.ok l → ∀ w ∈ l,
      ∀ wi, env.describe_volume w = Except.ok wi → wi.state ≠ "available")
    (hv : env.describe_volume v = Except.ok info)
    (hav : info.state = "available")
    (hrun : start_tagging_volumes env vol_ids inst_ids tags ow dr =
      .ok (st, calls)) :
    (∀ en ∈ st.volumes_by_instance, v ∉ en.2) ∧ (∀ c ∈ calls, c.1 ≠ v) := by
  rw [start_tagging_volumes] at hrun
  cases h1 : phase1 env (listDedup inst_ids) ⟨[], [], []⟩ with
  | error e =>
    simp only [h1] at hrun
    exact Except.noConfusion hrun
  | ok st1 =>
    simp only [h1] at hrun
    cases h2 : phase2 env (listDedup vol_ids) st1 with
    | error e =>
      simp only [h2] at hrun
      exact Except.noConfusion hrun
    | ok st2 =>
      simp only [h2] at hrun
      cases h3 : phase3 env tags ow dr st2.tags_by_instance
          st2.volumes_by_instance with
      | error e =>
        simp only [h3] at hrun
        exact Except.noConfusion hrun
      | ok cs =>
        simp only [h3] at hrun
        injection hrun with hrun
        have hst : st2 = st := congrArg Prod.fst hrun
        have hcs : cs = calls := congrArg Prod.snd hrun
        subst hst
        subst hcs
        have hg1 : GoodVols env (ResolveState.mk [] [] []).volumes_by_instance := by
          intro en hen
          simp at hen
        have hg2 := phase2_good env _ _ _ (phase1_good env _ _ _ hg1 h1) h2
        have hnot : ¬ VolOk env v := by
          rintro (⟨i, l, hil, hvl⟩ | ⟨wi, hwi, hne2⟩)
          · exact hcons i l hil v hvl info hv hav
          · rw [hv] at hwi
            injection hwi with hwi
            subst hwi
            exact hne2 hav
        constructor
        · intro en hen hvm
          exact hnot (hg2 en hen v hvm)
        · intro c hc hcv
          obtain ⟨en, hen, hc1⟩ := phase3_calls env tags ow dr _ _ cs h3 c hc
          rw [hcv] at hc1
          exact hnot (hg2 en hen v hc1)

/-- Environment for the C9 witness: instance i-1 lists no volumes and
the explicitly supplied volume v-2 is in the available state. -/
def envC9 : Env :=
  { describe_tags := fun _ => .ok [⟨"Env", "prod"⟩]
    instance_volumes := fun _ => .ok []
    describe_volume := fun w => if w == "v-2" then .ok ⟨"available", [], []⟩
      else .error "nf"
    create_tags := fun _ _ => .ok () }

/-- Witness for C9 at a concrete run (spec §8 scenario: explicitly listed
available volume v-2 is skipped): v-2 is absent from i-1's resolved
volume set. -/
theorem available_volume_never_tagged_witness : "v-2" ∉ ([] : List String) :=
  (available_volume_never_tagged envC9 "v-2" ⟨"available", [], []⟩ ["v-2"]
      ["i-1"] [] false false
      ⟨[("i-1", [("Env", "prod")])], [("i-1", [])], []⟩ []
      (by
        intro i l hil w hw
        injection hil with hil
        subst hil
        exact absurd hw (List.not_mem_nil w))
      rfl rfl rfl).1 ("i-1", []) (by decide)
